import Mathlib

/-!
Verification of the LinguistFlow vocabulary-hub core: the Bloom filter
(`services/bloomFilter.ts`), the streaming dictionary parser
(`services/fileParser.ts`), the multi-source Dictionary Hub
(`services/db.ts`), the settings-modal priority reordering
(`components/SettingsModal.tsx`), the lemma-candidate heuristics
(`services/linguistics.ts`) and the waterfall resolver (`App.tsx`).

JavaScript strings are modelled as lists of characters (UTF-16 code units
coincide with code points for the BMP text this application handles);
32-bit JavaScript integer arithmetic is modelled with `Nat` and explicit
`% 2^32`; `Uint8Array` is modelled as a `List Nat` of bytes.  Out-of-bounds
typed-array writes are ignored in JavaScript and `List.set` is likewise a
no-op out of bounds; out-of-bounds reads yield `undefined`, which the
bitwise operators coerce to `0`, matching `List.getD _ _ 0`.
-/

/-- A JavaScript string, as a list of characters. -/
abbrev Str := List Char

/-- Shorthand to write `Str` literals. -/
def str (s : String) : Str := s.data

namespace Bloom

/-- One step of the FNV-1a-style hash loop of `BloomFilter.hash`:
`h ^= str.charCodeAt(i); h = Math.imul(h, 0x01000193)`.
`Math.imul` multiplies modulo 2^32. -/
def hashStep (h : Nat) (c : Char) : Nat :=
  ((h ^^^ c.toNat) * 0x01000193) % 4294967296

/-- `BloomFilter.hash`: FNV-1a over the code units, returned as the
unsigned 32-bit value (`h >>> 0`). -/
def hash (s : Str) : Nat := s.foldl hashStep 0x811c9dc5

/-- The double-hashing stride constant of `add`/`test`. -/
def stride : Nat := 0x5bd1e995

/-- `BloomFilter` state: the fixed `size` (in bits) and the byte array. -/
structure Filter where
  size : Nat
  bitArray : List Nat
  deriving DecidableEq

/-- The constructor `new BloomFilter(size)` (no buffer supplied):
`bitArray = new Uint8Array(Math.ceil(size / 8))`. -/
def mkFilter (size : Nat) : Filter :=
  ⟨size, List.replicate ((size + 7) / 8) 0⟩

/-- `this.bitArray[idx / 8] |= (1 << idx % 8)`. -/
def setBit (arr : List Nat) (idx : Nat) : List Nat :=
  arr.set (idx / 8) (arr.getD (idx / 8) 0 ||| (1 <<< (idx % 8)))

/-- Read bit `idx` of the byte array (`0` beyond the end, as in JS). -/
def getBit (arr : List Nat) (idx : Nat) : Bool :=
  Nat.testBit (arr.getD (idx / 8) 0) (idx % 8)

/-- The bit index probed for hash `h` and round `i`:
`(h + i * 0x5bd1e995) % this.size`. -/
def probe (F : Filter) (h i : Nat) : Nat :=
  (h + i * stride) % F.size

/-- `BloomFilter.add`: sets the `k = 3` probed bits. -/
def add (F : Filter) (s : Str) : Filter :=
  let h := hash s
  (List.range 3).foldl (fun G i => { G with bitArray := setBit G.bitArray (probe G h i) }) F

/-- `BloomFilter.test`: true iff all `k = 3` probed bits are set. -/
def test (F : Filter) (s : Str) : Bool :=
  let h := hash s
  (List.range 3).all fun i => getBit F.bitArray (probe F h i)

/-- `BloomFilter.merge`: a silent no-op when the sizes differ, otherwise
`this.bitArray[i] |= other.bitArray[i]` for every index of `this`
(a missing `other` byte reads as `undefined`, which `|=` treats as `0`). -/
def merge (F G : Filter) : Filter :=
  if G.size ≠ F.size then F
  else { F with bitArray := F.bitArray.mapIdx fun i b => b ||| G.bitArray.getD i 0 }

/-- A subsequent operation on a filter: `add` a word or `merge` another
filter into it. -/
inductive Op where
  | addW (s : Str)
  | mergeF (G : Filter)

/-- Apply one operation. -/
def applyOp (F : Filter) : Op → Filter
  | .addW s => add F s
  | .mergeF G => merge F G

/-- Apply a sequence of operations. -/
def applyOps (F : Filter) (ops : List Op) : Filter := ops.foldl applyOp F

/-- Well-formedness: every filter the repository constructs has a positive
size and a byte array covering all `size` bit positions. -/
def wf (F : Filter) : Prop := 0 < F.size ∧ F.size ≤ 8 * F.bitArray.length

instance (F : Filter) : Decidable (wf F) := by unfold wf; infer_instance

theorem length_setBit (arr : List Nat) (idx : Nat) :
    (setBit arr idx).length = arr.length := by
  simp [setBit]

theorem size_add (F : Filter) (s : Str) : (add F s).size = F.size := by
  simp [add, List.range_succ]

theorem length_add (F : Filter) (s : Str) :
    (add F s).bitArray.length = F.bitArray.length := by
  simp [add, List.range_succ, length_setBit]

theorem size_merge (F G : Filter) : (merge F G).size = F.size := by
  unfold merge; split <;> simp

theorem length_merge (F G : Filter) :
    (merge F G).bitArray.length = F.bitArray.length := by
  unfold merge; split <;> simp

theorem size_applyOp (F : Filter) (op : Op) : (applyOp F op).size = F.size := by
  cases op <;> simp [applyOp, size_add, size_merge]

theorem length_applyOp (F : Filter) (op : Op) :
    (applyOp F op).bitArray.length = F.bitArray.length := by
  cases op <;> simp [applyOp, length_add, length_merge]

theorem wf_applyOp (F : Filter) (op : Op) (h : wf F) : wf (applyOp F op) := by
  obtain ⟨h1, h2⟩ := h
  exact ⟨by rw [size_applyOp]; exact h1, by rw [size_applyOp, length_applyOp]; exact h2⟩

/-- Setting a bit never clears another bit. -/
theorem getBit_setBit_mono (arr : List Nat) (j i : Nat) (h : getBit arr i = true) :
    getBit (setBit arr j) i = true := by
  unfold getBit setBit at *
  by_cases hij : j / 8 = i / 8
  · rw [← hij] at h ⊢
    by_cases hlt : j / 8 < arr.length
    · rw [List.getD_eq_getElem?_getD, List.getElem?_set_self hlt]
      rw [List.getD_eq_getElem?_getD, List.getElem?_eq_getElem hlt] at h
      simp only [Option.getD_some, Nat.testBit_or] at h ⊢
      simp [List.getD_eq_getElem?_getD, List.getElem?_eq_getElem hlt, h]
    · rw [List.set_eq_of_length_le (by omega)]
      exact h
  · rw [List.getD_eq_getElem?_getD, List.getElem?_set_ne hij, ← List.getD_eq_getElem?_getD]
    exact h

/-- The bit just set reads back true, provided its byte is in range. -/
theorem getBit_setBit_self (arr : List Nat) (idx : Nat) (h : idx / 8 < arr.length) :
    getBit (setBit arr idx) idx = true := by
  unfold getBit setBit
  rw [List.getD_eq_getElem?_getD, List.getElem?_set_self h]
  simp only [Option.getD_some, Nat.testBit_or]
  have : Nat.testBit (1 <<< (idx % 8)) (idx % 8) = true := by
    rw [Nat.shiftLeft_eq, one_mul]
    exact Nat.testBit_two_pow_self
  simp [this]

/-- `merge` never clears a bit of the target. -/
theorem getBit_merge_mono (F G : Filter) (i : Nat) (h : getBit F.bitArray i = true) :
    getBit (merge F G).bitArray i = true := by
  unfold merge
  split
  · exact h
  · unfold getBit at *
    by_cases hlt : i / 8 < F.bitArray.length
    · rw [List.getD_eq_getElem?_getD, List.getElem?_mapIdx, List.getElem?_eq_getElem hlt]
      rw [List.getD_eq_getElem?_getD, List.getElem?_eq_getElem hlt] at h
      simp only [Option.getD_some] at h
      simp [h]
    · have hl : F.bitArray.getD (i / 8) 0 = 0 := by
        rw [List.getD_eq_getElem?_getD, List.getElem?_eq_none (by omega)]
        rfl
      have hm : (F.bitArray.mapIdx fun j b => b ||| G.bitArray.getD j 0).getD (i / 8) 0 = 0 := by
        rw [List.getD_eq_getElem?_getD, List.getElem?_mapIdx,
          List.getElem?_eq_none (by omega)]
        rfl
      rw [hm]
      rw [hl] at h
      exact h

/-- `add` never clears a bit. -/
theorem getBit_add_mono (F : Filter) (s : Str) (i : Nat) (h : getBit F.bitArray i = true) :
    getBit (add F s).bitArray i = true := by
  unfold add
  simp only [List.range_succ, List.range_zero, List.nil_append, List.cons_append,
    List.foldl_cons, List.foldl_nil]
  exact getBit_setBit_mono _ _ _ (getBit_setBit_mono _ _ _ (getBit_setBit_mono _ _ _ h))

theorem getBit_applyOp_mono (F : Filter) (op : Op) (i : Nat)
    (h : getBit F.bitArray i = true) : getBit (applyOp F op).bitArray i = true := by
  cases op with
  | addW s => exact getBit_add_mono F s i h
  | mergeF G => exact getBit_merge_mono F G i h

theorem getBit_applyOps_mono (ops : List Op) (F : Filter) (i : Nat)
    (h : getBit F.bitArray i = true) : getBit (applyOps F ops).bitArray i = true := by
  induction ops generalizing F with
  | nil => exact h
  | cons op ops ih =>
    exact ih (applyOp F op) (getBit_applyOp_mono F op i h)

theorem size_applyOps (ops : List Op) (F : Filter) : (applyOps F ops).size = F.size := by
  induction ops generalizing F with
  | nil => rfl
  | cons op ops ih => rw [applyOps, List.foldl_cons, ← applyOps, ih, size_applyOp]

/-- In a well-formed filter every probed byte index is in range. -/
theorem probe_div_lt (F : Filter) (hwf : wf F) (h i : Nat) :
    probe F h i / 8 < F.bitArray.length := by
  obtain ⟨h1, h2⟩ := hwf
  have hp : probe F h i < F.size := Nat.mod_lt _ h1
  have : probe F h i < 8 * F.bitArray.length := lt_of_lt_of_le hp h2
  omega

/-- Immediately after `add`, all three probed bits are set. -/
theorem getBit_add_probe (F : Filter) (s : Str) (hwf : wf F) (i : Nat) (hi : i < 3) :
    getBit (add F s).bitArray (probe F (hash s) i) = true := by
  unfold add
  simp only [List.range_succ, List.range_zero, List.nil_append, List.cons_append,
    List.foldl_cons, List.foldl_nil]
  have hsz : ∀ G : Filter, G.size = F.size → ∀ j, probe G (hash s) j = probe F (hash s) j := by
    intro G hG j; unfold probe; rw [hG]
  set a1 := setBit F.bitArray (probe F (hash s) 0) with ha1
  have hl1 : a1.length = F.bitArray.length := length_setBit _ _
  interval_cases i
  · apply getBit_setBit_mono
    apply getBit_setBit_mono
    exact getBit_setBit_self _ _ (probe_div_lt F hwf _ 0)
  · apply getBit_setBit_mono
    apply getBit_setBit_self
    rw [length_setBit]
    exact probe_div_lt F hwf _ 1
  · apply getBit_setBit_self
    rw [length_setBit, length_setBit]
    exact probe_div_lt F hwf _ 2

/-- C3 core: after `F.add(w)` and any further sequence of `add`/`merge`
operations, `test w` is still true. -/
theorem test_after_add_ops (F : Filter) (w : Str) (ops : List Op) (hwf : wf F) :
    test (applyOps (add F w) ops) w = true := by
  unfold test
  simp only [List.all_eq_true, List.mem_range]
  intro i hi
  have hsize : (applyOps (add F w) ops).size = F.size := by
    rw [size_applyOps, size_add]
  have hprobe : probe (applyOps (add F w) ops) (hash w) i = probe F (hash w) i := by
    unfold probe; rw [hsize]
  rw [hprobe]
  exact getBit_applyOps_mono ops (add F w) _ (getBit_add_probe F w hwf i (by simpa using hi))

end Bloom

/-- C3: for every well-formed Bloom filter `F` (positive size, byte array
covering all bit positions — true of every filter the repository
constructs) and every string `w`, `test w` is true immediately after
`add w` and remains true after any further sequence of `add` and `merge`
operations; the constructor produces well-formed filters and every
operation preserves well-formedness. -/
theorem bloom_no_false_negative :
    (∀ n : Nat, 0 < n → Bloom.wf (Bloom.mkFilter n)) ∧
    (∀ (F : Bloom.Filter) (op : Bloom.Op), Bloom.wf F → Bloom.wf (Bloom.applyOp F op)) ∧
    (∀ (F : Bloom.Filter) (w : Str) (ops : List Bloom.Op), Bloom.wf F →
      Bloom.test (Bloom.applyOps (Bloom.add F w) ops) w = true) := by
  refine ⟨?_, ?_, ?_⟩
  · intro n hn
    constructor
    · exact hn
    · simp only [Bloom.mkFilter, List.length_replicate]
      omega
  · intro F op h
    exact Bloom.wf_applyOp F op h
  · intro F w ops h
    exact Bloom.test_after_add_ops F w ops h

/-- C3 witness: a concrete 64-bit filter, the word "cat", and a subsequent
`add` and `merge`. -/
theorem bloom_no_false_negative_witness :
    Bloom.wf (Bloom.mkFilter 64) ∧
    Bloom.test (Bloom.applyOps (Bloom.add (Bloom.mkFilter 64) (str "cat"))
      [Bloom.Op.addW (str "dog"), Bloom.Op.mergeF (Bloom.mkFilter 64)]) (str "cat") = true :=
  ⟨by decide,
   bloom_no_false_negative.2.2 (Bloom.mkFilter 64) (str "cat")
     [Bloom.Op.addW (str "dog"), Bloom.Op.mergeF (Bloom.mkFilter 64)] (by decide)⟩

/-- C8: merging filters of different sizes is a silent no-op that leaves
the target filter (size and every byte of its bit array) exactly
unchanged; with equal sizes, every byte of the result is the bitwise OR
of the corresponding bytes. -/
theorem bloom_merge_size_guard (F G : Bloom.Filter) :
    (F.size ≠ G.size → Bloom.merge F G = F) ∧
    (F.size = G.size →
      (Bloom.merge F G).size = F.size ∧
      (Bloom.merge F G).bitArray.length = F.bitArray.length ∧
      ∀ i < F.bitArray.length,
        (Bloom.merge F G).bitArray.getD i 0 =
          F.bitArray.getD i 0 ||| G.bitArray.getD i 0) := by
  constructor
  · intro h
    unfold Bloom.merge
    rw [if_pos (fun hc => h hc.symm)]
  · intro h
    refine ⟨Bloom.size_merge F G, Bloom.length_merge F G, ?_⟩
    intro i hi
    unfold Bloom.merge
    rw [if_neg (by omega)]
    simp only
    rw [List.getD_eq_getElem?_getD, List.getElem?_mapIdx, List.getElem?_eq_getElem hi]
    rw [List.getD_eq_getElem?_getD F.bitArray, List.getElem?_eq_getElem hi]
    rfl

/-- C8 witness: a 16-bit filter with a set byte merged with a 24-bit
filter is unchanged; merged with another 16-bit filter it ORs bytes. -/
theorem bloom_merge_size_guard_witness :
    (Bloom.merge ⟨16, [1, 2]⟩ ⟨24, [255, 255, 255]⟩ = ⟨16, [1, 2]⟩) ∧
    (Bloom.merge ⟨16, [1, 2]⟩ ⟨16, [4, 8]⟩).bitArray.getD 0 0 = (1 ||| 4) := by
  constructor
  · exact (bloom_merge_size_guard ⟨16, [1, 2]⟩ ⟨24, [255, 255, 255]⟩).1 (by decide)
  · have h := (bloom_merge_size_guard ⟨16, [1, 2]⟩ ⟨16, [4, 8]⟩).2 rfl
    exact h.2.2 0 (by decide)

namespace FileParse

/-- The double-quote character (we build it by code point so that quote
handling stays readable in list form). -/
def dquote : Char := Char.ofNat 34

/-- JavaScript whitespace as stripped by `String.prototype.trim` (the
ASCII forms occurring in this data). -/
def isWs (c : Char) : Bool :=
  c == ' ' || c == '\t' || c == '\n' || c == '\r' || c == '\x0b' || c == '\x0c'

/-- `s.trim()`. -/
def jsTrim (s : Str) : Str :=
  ((s.dropWhile isWs).reverse.dropWhile isWs).reverse

/-- Prepend a character to the first element of a split result (the
"current line grows to the left" step of a left-to-right split). -/
def consHead (c : Char) : List Str → List Str
  | [] => [[c]]
  | l :: ls => (c :: l) :: ls

/-- `combined.split(/\r?\n/)`: a `\n` is a separator, a `\r` immediately
followed by `\n` is consumed with it, a lone `\r` is literal text. -/
def splitLines : Str → List Str
  | [] => [[]]
  | '\n' :: rest => [] :: splitLines rest
  | '\r' :: '\n' :: rest => [] :: splitLines rest
  | c :: rest => consHead c (splitLines rest)

/-- `line.split(sep)` for a single-character separator. -/
def splitOnChar (sep : Char) : Str → List Str
  | [] => [[]]
  | c :: rest =>
    if c = sep then [] :: splitOnChar sep rest else consHead c (splitOnChar sep rest)

/-- Number of double quotes in a string. -/
def quoteCount (s : Str) : Nat := s.count dquote

/-- `line.split(/,(?=(?:(?:[^"]*"){2})*[^"]*$)/)`: split at a comma
exactly when the remaining suffix contains an even number of double
quotes (the lookahead), i.e. the comma is not inside a quoted field of a
quote-balanced line. -/
def csvSplit : Str → List Str
  | [] => [[]]
  | c :: rest =>
    if c = ',' ∧ quoteCount rest % 2 = 0 then [] :: csvSplit rest
    else consHead c (csvSplit rest)

/-- `.replace(/^"|"$/g, '')`: drop one leading and one trailing double
quote. -/
def dequote (s : Str) : Str :=
  let s1 := if s.head? = some dquote then s.tail else s
  if s1.getLast? = some dquote then s1.dropLast else s1

/-- A CJK unified ideograph, as matched by `/[一-龥]/`. -/
def isCjk (c : Char) : Bool := 0x4e00 ≤ c.toNat && c.toNat ≤ 0x9fa5

/-- A parsed dictionary entry `{ word, translation, metadata }`; the only
metadata field the parser sets is `hanja`. -/
structure Entry where
  word : Str
  translation : Str
  hanja : Option Str
  deriving DecidableEq

/-- The per-line delimiter choice of the worker's `processLines`: tab
first, then comma (quote-aware), then full-width comma. -/
def chooseParts (line : Str) : List Str :=
  if line.contains '\t' then splitOnChar '\t' line
  else if line.contains ',' then csvSplit line
  else splitOnChar '，' line

/-- One iteration of the worker's `processLines` loop on a single line:
`none` when the line is skipped (blank, fewer than two parts, or empty
word/translation after trimming and de-quoting). -/
def parseLine (line : Str) : Option Entry :=
  if jsTrim line = [] then none
  else
    let parts := chooseParts line
    if 2 ≤ parts.length then
      let word := dequote (jsTrim (parts.headD []))
      let translation := dequote (jsTrim (List.intercalate [','] parts.tail))
      if word = [] ∨ translation = [] then none
      else
        let hanja :=
          if 2 < parts.length then
            let extra := dequote (jsTrim (parts.getD 2 []))
            if extra ≠ [] ∧ extra.any isCjk then some extra else none
          else none
        some ⟨word, translation, hanja⟩
    else none

/-- `processLines`: entries produced by the surviving lines, in order
(batch emission concatenates the batches back to this sequence). -/
def processLines (lines : List Str) : List Entry := lines.filterMap parseLine

/-- Worker stream state: the buffered partial last line and the entries
emitted so far. -/
structure StreamState where
  leftover : Str
  entries : List Entry

/-- The `streamData` handler: prepend the leftover, split on line
boundaries, keep the last (possibly partial) line as the new leftover,
process the complete lines. -/
def pushChunk (st : StreamState) (chunk : Str) : StreamState :=
  ⟨(splitLines (st.leftover ++ chunk)).getLastD [],
    st.entries ++ processLines (splitLines (st.leftover ++ chunk)).dropLast⟩

/-- The `streamEnd` handler: a non-blank final leftover is processed as a
complete line. -/
def endStream (st : StreamState) : List Entry :=
  if jsTrim st.leftover ≠ [] then st.entries ++ processLines [st.leftover]
  else st.entries

/-- Initial worker state (`streamLeftover = ''`, no entries). -/
def initState : StreamState := ⟨[], []⟩

/-- Feed the chunks in order, then signal end-of-stream. -/
def parseChunked (chunks : List Str) : List Entry :=
  endStream (chunks.foldl pushChunk initState)

/-- Parse a whole text in one shot. -/
def parseOneShot (text : Str) : List Entry := processLines (splitLines text)

theorem consHead_ne_nil (c : Char) (ls : List Str) : consHead c ls ≠ [] := by
  cases ls <;> simp [consHead]

theorem splitLines_ne_nil (s : Str) : splitLines s ≠ [] := by
  induction s using splitLines.induct <;> simp_all [splitLines, consHead_ne_nil]

theorem splitLines_cons (c : Char) (r : Str) (h1 : c ≠ '\n')
    (h2 : c = '\r' → r.head? ≠ some '\n') :
    splitLines (c :: r) = consHead c (splitLines r) := by
  rw [splitLines.eq_def]
  split
  · simp_all
  · simp_all
  · rename_i heq
    rw [List.cons.injEq] at heq
    exact absurd (by rw [heq.2]; rfl) (h2 heq.1)
  · rename_i heq
    rw [List.cons.injEq] at heq
    rw [heq.1, heq.2]

/-- `getLastD` ignores the default on a non-empty list. -/
theorem getLastD_irrel {l : List Str} (h : l ≠ []) (d d' : Str) :
    l.getLastD d = l.getLastD d' := by
  obtain ⟨a, ha⟩ := Option.isSome_iff_exists.mp (List.getLast?_isSome.mpr h)
  rw [List.getLastD_eq_getLast?, List.getLastD_eq_getLast?, ha]
  rfl

theorem getLastD_append_ne {l₁ l₂ : List Str} (h : l₂ ≠ []) (d : Str) :
    (l₁ ++ l₂).getLastD d = l₂.getLastD d := by
  obtain ⟨a, ha⟩ := Option.isSome_iff_exists.mp (List.getLast?_isSome.mpr h)
  rw [List.getLastD_eq_getLast?, List.getLastD_eq_getLast?, List.getLast?_append, ha]
  rfl

/-- A string without `\n` is a single line. -/
theorem splitLines_no_newline (s : Str) (h : '\n' ∉ s) : splitLines s = [s] := by
  induction s with
  | nil => rfl
  | cons c r ih =>
    have hc : c ≠ '\n' := fun hc => h (hc ▸ List.mem_cons_self c r)
    have hr : '\n' ∉ r := fun hr => h (List.mem_cons_of_mem c hr)
    rw [splitLines_cons c r hc]
    · rw [ih hr]; rfl
    · intro _ hhead
      cases r with
      | nil => simp at hhead
      | cons d r' =>
        simp only [List.head?_cons, Option.some.injEq] at hhead
        exact hr (hhead ▸ List.mem_cons_self d r')

/-- Splitting off the first `\n`-separator line (separator `\n`, the
preceding text free of `\n` and not ending in `\r`). -/
theorem splitLines_break (p q : Str) (hp : '\n' ∉ p) (hr : p.getLast? ≠ some '\r') :
    splitLines (p ++ '\n' :: q) = p :: splitLines q := by
  induction p with
  | nil => rfl
  | cons a p' ih =>
    have ha : a ≠ '\n' := fun h => hp (h ▸ List.mem_cons_self a p')
    have hp' : '\n' ∉ p' := fun h => hp (List.mem_cons_of_mem a h)
    rw [List.cons_append, splitLines_cons a (p' ++ '\n' :: q) ha]
    · cases p' with
      | nil =>
        simp only [List.getLast?_singleton, ne_eq, Option.some.injEq] at hr
        rw [List.nil_append]
        simp [splitLines, consHead]
      | cons b p'' =>
        rw [ih hp' (by rwa [List.getLast?_cons_cons] at hr)]
        rfl
    · intro haa hhead
      cases p' with
      | nil => exact hr (by rw [haa]; rfl)
      | cons b p'' =>
        simp only [List.cons_append, List.head?_cons, Option.some.injEq] at hhead
        exact hp' (hhead ▸ List.mem_cons_self b p'')

/-- Splitting off the first `\r\n`-separator line. -/
theorem splitLines_break_crlf (p q : Str) (hp : '\n' ∉ p) :
    splitLines (p ++ '\r' :: '\n' :: q) = p :: splitLines q := by
  induction p with
  | nil => rfl
  | cons a p' ih =>
    have ha : a ≠ '\n' := fun h => hp (h ▸ List.mem_cons_self a p')
    have hp' : '\n' ∉ p' := fun h => hp (List.mem_cons_of_mem a h)
    rw [List.cons_append, splitLines_cons a (p' ++ '\r' :: '\n' :: q) ha]
    · rw [ih hp']; rfl
    · intro _ hhead
      cases p' with
      | nil => simp at hhead
      | cons b p'' =>
        simp only [List.cons_append, List.head?_cons, Option.some.injEq] at hhead
        exact hp' (hhead ▸ List.mem_cons_self b p'')

theorem exists_first_newline (x : Str) (h : '\n' ∈ x) :
    ∃ p q, x = p ++ '\n' :: q ∧ '\n' ∉ p := by
  induction x with
  | nil => cases h
  | cons c r ih =>
    by_cases hc : c = '\n'
    · exact ⟨[], r, by rw [hc]; rfl, by simp⟩
    · obtain ⟨p, q, hpq, hp⟩ := ih (by
        rcases List.mem_cons.mp h with h1 | h2
        · exact absurd h1.symm hc
        · exact h2)
      exact ⟨c :: p, q, by rw [hpq]; rfl, by
        intro hmem
        rcases List.mem_cons.mp hmem with h1 | h2
        · exact hc h1.symm
        · exact hp h2⟩

/-- Splitting a concatenation: the lines of `x ++ y` are the complete
lines of `x` followed by the lines of (last line of `x` ++ `y`) — exactly
the leftover-prepending discipline of the worker. -/
theorem splitLines_append (x y : Str) :
    splitLines (x ++ y) =
      (splitLines x).dropLast ++ splitLines ((splitLines x).getLastD [] ++ y) := by
  suffices h : ∀ (n : Nat) (x y : Str), x.length ≤ n → splitLines (x ++ y) =
      (splitLines x).dropLast ++ splitLines ((splitLines x).getLastD [] ++ y) from
    h x.length x y le_rfl
  intro n
  induction n with
  | zero =>
    intro x y hlen
    rw [List.length_eq_zero.mp (Nat.le_zero.mp hlen)]
    simp [splitLines, List.getLastD]
  | succ n ih =>
    intro x y hlen
    by_cases hx : '\n' ∈ x
    · obtain ⟨p, q, rfl, hp⟩ := exists_first_newline x hx
      have hq : q.length ≤ n := by
        rw [List.length_append, List.length_cons] at hlen
        omega
      have hSq := splitLines_ne_nil q
      have hSqy := splitLines_ne_nil (q ++ y)
      by_cases hr : p.getLast? = some '\r'
      · obtain ⟨p'', rfl⟩ := List.getLast?_eq_some_iff.mp hr
        have hp'' : '\n' ∉ p'' := fun hmem => hp (List.mem_append_left _ hmem)
        have hx1 : (p'' ++ ['\r']) ++ '\n' :: q = p'' ++ '\r' :: '\n' :: q := by
          simp
        have hx2 : ((p'' ++ ['\r']) ++ '\n' :: q) ++ y = p'' ++ '\r' :: '\n' :: (q ++ y) := by
          simp
        rw [hx2, hx1, splitLines_break_crlf p'' q hp'', splitLines_break_crlf p'' (q ++ y) hp'']
        rw [List.dropLast_cons_of_ne_nil hSq]
        have hgl : (p'' :: splitLines q).getLastD [] = (splitLines q).getLastD [] := by
          have : p'' :: splitLines q = [p''] ++ splitLines q := rfl
          rw [this, getLastD_append_ne hSq]
        rw [hgl, List.cons_append]
        rw [ih q y hq]
      · rw [splitLines_break p q hp hr]
        have hx2 : (p ++ '\n' :: q) ++ y = p ++ '\n' :: (q ++ y) := by simp
        rw [hx2, splitLines_break p (q ++ y) hp hr]
        rw [List.dropLast_cons_of_ne_nil hSq]
        have hgl : (p :: splitLines q).getLastD [] = (splitLines q).getLastD [] := by
          have : p :: splitLines q = [p] ++ splitLines q := rfl
          rw [this, getLastD_append_ne hSq]
        rw [hgl, List.cons_append]
        rw [ih q y hq]
    · rw [splitLines_no_newline x hx]
      simp [List.getLastD]

theorem processLines_append (l1 l2 : List Str) :
    processLines (l1 ++ l2) = processLines l1 ++ processLines l2 := by
  simp [processLines]

/-- Pushing two chunks is the same as pushing their concatenation. -/
theorem pushChunk_pushChunk (st : StreamState) (a b : Str) :
    pushChunk (pushChunk st a) b = pushChunk st (a ++ b) := by
  unfold pushChunk
  dsimp only
  have hassoc : st.leftover ++ (a ++ b) = (st.leftover ++ a) ++ b := by simp
  rw [hassoc, splitLines_append (st.leftover ++ a) b]
  have hB := splitLines_ne_nil ((splitLines (st.leftover ++ a)).getLastD [] ++ b)
  rw [getLastD_append_ne hB, List.dropLast_append_of_ne_nil _ hB, processLines_append]
  simp

theorem foldl_pushChunk (cs : List Str) (st : StreamState) (c : Str) :
    cs.foldl pushChunk (pushChunk st c) = pushChunk st (c ++ cs.flatten) := by
  induction cs generalizing st c with
  | nil => simp
  | cons d ds ihd =>
    rw [List.foldl_cons, pushChunk_pushChunk, ihd]
    simp

theorem endStream_eq (st : StreamState) :
    endStream st = st.entries ++ processLines [st.leftover] := by
  unfold endStream
  split
  · rfl
  · rename_i h
    rw [not_not] at h
    simp [processLines, parseLine, h]

theorem endStream_pushChunk_init (t : Str) :
    endStream (pushChunk initState t) = parseOneShot t := by
  rw [endStream_eq]
  unfold pushChunk initState parseOneShot
  simp only [List.nil_append]
  rw [← processLines_append]
  congr 1
  have h := splitLines_ne_nil t
  conv_rhs => rw [← List.dropLast_concat_getLast h]
  congr 1
  rw [List.getLastD_eq_getLast?, List.getLast?_eq_getLast _ h]
  rfl

end FileParse

/-- C4: feeding a text to the streaming parser as any sequence of
consecutive chunks — including splits in the middle of a line, with the
partial last line of each chunk buffered and prepended to the next, and a
non-empty final leftover processed as a complete line on end-of-stream —
produces exactly the entry sequence of parsing the whole text in one
shot. -/
theorem parser_chunk_invariance (chunks : List Str) :
    FileParse.parseChunked chunks = FileParse.parseOneShot chunks.flatten := by
  cases chunks with
  | nil =>
    decide
  | cons c cs =>
    rw [FileParse.parseChunked, List.foldl_cons, FileParse.foldl_pushChunk,
      List.flatten_cons, FileParse.endStream_pushChunk_init]

namespace FileParse

theorem csvSplit_ne_nil (l : Str) : csvSplit l ≠ [] := by
  cases l with
  | nil => simp [csvSplit]
  | cons c r =>
    rw [csvSplit]
    split
    · simp
    · exact consHead_ne_nil _ _

theorem quoteCount_cons (c : Char) (r : Str) :
    quoteCount (c :: r) = quoteCount r + if c = dquote then 1 else 0 := by
  simp only [quoteCount, List.count_cons]
  by_cases hc : c = dquote <;> simp [hc]

/-- Parity bookkeeping for the quote-aware comma split: every part after
the first has an even number of quotes, and the first part has the parity
of the whole line. -/
theorem csvSplit_parity (l : Str) :
    (∀ p ∈ (csvSplit l).tail, quoteCount p % 2 = 0) ∧
    quoteCount ((csvSplit l).headD []) % 2 = quoteCount l % 2 := by
  induction l with
  | nil => simp [csvSplit, quoteCount]
  | cons c r ih =>
    obtain ⟨iht, ihh⟩ := ih
    obtain ⟨h0, t0, hct⟩ := List.exists_cons_of_ne_nil (csvSplit_ne_nil r)
    rw [csvSplit]
    by_cases hc : c = ',' ∧ quoteCount r % 2 = 0
    · rw [if_pos hc]
      constructor
      · intro p hp
        simp only [List.tail_cons] at hp
        rw [hct] at hp
        rcases List.mem_cons.mp hp with rfl | hmem
        · rw [hct] at ihh
          simp only [List.headD_cons] at ihh
          rw [ihh]
          exact hc.2
        · exact iht p (by rw [hct]; exact hmem)
      · have hcq : c ≠ dquote := by
          rw [hc.1]
          decide
        rw [List.headD_cons, quoteCount_cons, if_neg hcq]
        have h2 := hc.2
        unfold quoteCount at h2 ⊢
        simp [h2]
    · rw [if_neg hc, hct]
      simp only [consHead, List.tail_cons, List.headD_cons]
      constructor
      · intro p hp
        exact iht p (by rw [hct]; exact hp)
      · rw [hct] at ihh
        simp only [List.headD_cons] at ihh
        rw [quoteCount_cons, quoteCount_cons]
        omega

/-- On a quote-balanced line the comma split never cuts inside a quoted
field: every produced part is itself quote-balanced. -/
theorem csvSplit_even (l : Str) (h : quoteCount l % 2 = 0) :
    ∀ p ∈ csvSplit l, quoteCount p % 2 = 0 := by
  obtain ⟨ht, hh⟩ := csvSplit_parity l
  obtain ⟨h0, t0, hct⟩ := List.exists_cons_of_ne_nil (csvSplit_ne_nil l)
  intro p hp
  rw [hct] at hp
  rcases List.mem_cons.mp hp with rfl | hmem
  · rw [hct] at hh
    simp only [List.headD_cons] at hh
    rw [hh]
    exact h
  · exact ht p (by rw [hct]; exact hmem)

/-- The per-line parsing of `previewDictionaryFile` (its own copy of the
delimiter logic): the preview pair, or `none` when the line is skipped. -/
def previewLine (line : Str) : Option (Str × Str) :=
  if jsTrim line = [] then none
  else
    let parts :=
      if line.contains '\t' then splitOnChar '\t' line
      else if line.contains ',' then csvSplit line
      else splitOnChar '，' line
    if 2 ≤ parts.length then
      let word := dequote (jsTrim (parts.headD []))
      let translation := dequote (jsTrim (List.intercalate [','] parts.tail))
      if word = [] ∨ translation = [] then none else some (word, translation)
    else none

end FileParse

/-- C5: a line is split on tabs when it contains one, otherwise on commas
followed by an even number of quotes (so a quote-balanced line is never
split inside a double-quoted field — every part keeps balanced quotes),
otherwise on full-width commas; in particular `"Smith, John",translation`
parses to word `Smith, John` and translation `translation`. -/
theorem parser_quoted_comma_handling :
    (∀ line : Str, line.contains '\t' = true →
        FileParse.chooseParts line = FileParse.splitOnChar '\t' line) ∧
    (∀ line : Str, line.contains '\t' = false → line.contains ',' = true →
        FileParse.chooseParts line = FileParse.csvSplit line) ∧
    (∀ line : Str, line.contains '\t' = false → line.contains ',' = false →
        FileParse.chooseParts line = FileParse.splitOnChar '，' line) ∧
    (∀ l : Str, FileParse.quoteCount l % 2 = 0 →
        ∀ p ∈ FileParse.csvSplit l, FileParse.quoteCount p % 2 = 0) ∧
    FileParse.parseLine
        ([FileParse.dquote] ++ str "Smith, John" ++ [FileParse.dquote] ++ str ",translation") =
      some ⟨str "Smith, John", str "translation", none⟩ := by
  refine ⟨?_, ?_, ?_, FileParse.csvSplit_even, ?_⟩
  · intro line h
    unfold FileParse.chooseParts
    rw [if_pos h]
  · intro line h1 h2
    unfold FileParse.chooseParts
    rw [if_neg (by rw [h1]; exact Bool.false_ne_true), if_pos h2]
  · intro line h1 h2
    unfold FileParse.chooseParts
    rw [if_neg (by rw [h1]; exact Bool.false_ne_true),
      if_neg (by rw [h2]; exact Bool.false_ne_true)]
  · decide

/-- C5 witness: the delimiter-precedence and quote-parity conjuncts at
concrete lines. -/
theorem parser_quoted_comma_handling_witness :
    FileParse.chooseParts (str "a\tb") = FileParse.splitOnChar '\t' (str "a\tb") ∧
    FileParse.chooseParts (str "a,b") = FileParse.csvSplit (str "a,b") ∧
    FileParse.chooseParts (str "a，b") = FileParse.splitOnChar '，' (str "a，b") ∧
    (∀ p ∈ FileParse.csvSplit ([FileParse.dquote] ++ str "a,b" ++ [FileParse.dquote] ++ str ",c"),
      FileParse.quoteCount p % 2 = 0) :=
  ⟨parser_quoted_comma_handling.1 _ (by decide),
   parser_quoted_comma_handling.2.1 _ (by decide) (by decide),
   parser_quoted_comma_handling.2.2.1 _ (by decide) (by decide),
   parser_quoted_comma_handling.2.2.2.1 _ (by decide)⟩

/-- C10: for every single line, the import-preview parser and the
streaming import worker's line processor agree — the preview pair is
exactly the (word, translation) of the worker's entry, and the preview
skips a line exactly when the import does. -/
theorem preview_matches_import (line : Str) :
    FileParse.previewLine line =
      (FileParse.parseLine line).map (fun e => (e.word, e.translation)) ∧
    (FileParse.previewLine line = none ↔ FileParse.parseLine line = none) := by
  have h : FileParse.previewLine line =
      (FileParse.parseLine line).map (fun e => (e.word, e.translation)) := by
    simp only [FileParse.previewLine, FileParse.parseLine, FileParse.chooseParts]
    split_ifs <;> rfl
  refine ⟨h, ?_⟩
  rw [h]
  cases FileParse.parseLine line <;> simp

/-- The application's languages (the `Language` union type). -/
inductive Lang where
  | EN
  | FR
  | KR
  deriving DecidableEq

/-- `DictionarySource.type`. -/
inductive SourceType where
  | USER
  | IMPORTED
  | SYSTEM
  deriving DecidableEq

/-- `s.toLowerCase()` (ASCII case mapping, which covers this data). -/
def jsToLower (s : Str) : Str := s.map Char.toLower

namespace Hub

/-- `DictionarySource` metadata record of the `dict_meta` store. -/
structure Source where
  id : Str
  name : Str
  language : Lang
  priority : Nat
  enabled : Bool
  count : Nat
  type : SourceType
  deriving DecidableEq

/-- A `dict_entries` record; `hanja` is the one metadata field the code
indexes and queries (`metadata.hanja`). `original` is absent (`none`) on
records not written through the import path. -/
structure HubEntry where
  dictId : Str
  word : Str
  original : Option Str
  translation : Str
  hanja : Option Str
  deriving DecidableEq

/-- A record of the legacy single-table `dictionary` store, keyed by
`(language, word)`. -/
structure LegacyEntry where
  language : Lang
  word : Str
  original : Option Str
  translation : Str
  deriving DecidableEq

/-- The persistent state the Hub queries: `dict_meta` (in primary-key
order), `dict_entries`, and the legacy store. -/
structure DB where
  meta : List Source
  hub : List HubEntry
  legacy : List LegacyEntry
  deriving DecidableEq

/-- A `Partial<DictionaryEntry>` as handed to `importBatchToDict`:
any field may be missing. -/
structure PEntry where
  word : Option Str
  translation : Option Str
  hanja : Option Str
  deriving DecidableEq

/-- Stable insertion of a source into a priority-sorted list (realising
the stable `sort((a, b) => a.priority - b.priority)`). -/
def insertByPriority (a : Source) : List Source → List Source
  | [] => [a]
  | b :: l => if a.priority ≤ b.priority then a :: b :: l else b :: insertByPriority a l

/-- Stable sort by ascending priority. -/
def sortByPriority (l : List Source) : List Source := l.foldr insertByPriority []

/-- `getDictionaries`: the language's sources sorted by ascending
priority (0 = highest precedence). -/
def getDictionaries (db : DB) (lang : Lang) : List Source :=
  sortByPriority (db.meta.filter (fun d => d.language == lang))

/-- JS `x || y` on an optional string: an absent or empty string falls
through to `y`. -/
def strOr (o : Option Str) (y : Str) : Str :=
  match o with
  | some s => if s = [] then y else s
  | none => y

/-- `lookupLegacy`: a legacy hit is rewrapped with `dictId = 'LEGACY'`
and `word = original || word`. -/
def lookupLegacy (db : DB) (lang : Lang) (word : Str) : Option HubEntry :=
  (db.legacy.find? (fun e => e.language == lang && e.word == word)).map fun e =>
    ⟨str "LEGACY", strOr e.original e.word, none, e.translation, none⟩

/-- `store.put` on `dict_entries`: replace the record with the same
`[dictId, word]` key, or append a new record. -/
def putHubEntry (hub : List HubEntry) (e : HubEntry) : List HubEntry :=
  if hub.any (fun x => x.dictId == e.dictId && x.word == e.word) then
    hub.map (fun x => if x.dictId == e.dictId && x.word == e.word then e else x)
  else hub ++ [e]

/-- The record `importBatchToDict` stores for a batch entry whose `word`
is present and non-empty. -/
def storedEntry (dictId : Str) (w : Str) (p : PEntry) : HubEntry :=
  ⟨dictId, FileParse.jsTrim (jsToLower w), some w, p.translation.getD [], p.hanja⟩

/-- `importBatchToDict`: upsert every entry with a truthy `word` (keyed
by the lowercased-trimmed word), then add the full batch length
`entries.length` to the source's cached `count`. -/
def importBatchToDict (db : DB) (entries : List PEntry) (dictId : Str) : DB :=
  { db with
    hub := entries.foldl (fun h p =>
      match p.word with
      | some w => if w ≠ [] then putHubEntry h (storedEntry dictId w p) else h
      | none => h) db.hub,
    meta := db.meta.map (fun d =>
      if d.id == dictId then { d with count := d.count + entries.length } else d) }

/-- The deduplication key `` `${m.dictId}_${m.word}` ``. -/
def entryKey (e : HubEntry) : Str := e.dictId ++ '_' :: e.word

/-- First-wins deduplication in insertion order (the `Map` of
`lookupCascade`). -/
def dedupByKey (l : List HubEntry) : List HubEntry :=
  l.foldl (fun acc m => if acc.any (fun x => entryKey x == entryKey m) then acc else acc ++ [m]) []

/-- Stable insertion of a result into a priority-sorted result list. -/
def insertResult (a : HubEntry × Source) :
    List (HubEntry × Source) → List (HubEntry × Source)
  | [] => [a]
  | b :: l => if a.2.priority ≤ b.2.priority then a :: b :: l else b :: insertResult a l

/-- Stable sort of the cascade results by ascending source priority. -/
def sortResults (l : List (HubEntry × Source)) : List (HubEntry × Source) :=
  l.foldr insertResult []

/-- `lookupCascade`: normalise the word, keep only enabled sources,
query the `word` index across all sources (plus the `hanja` index for
Korean), deduplicate by `(dictId, word)`, attach each match's enabled
source, splice a legacy hit in under the USER source when that source
has no match yet, and sort by ascending priority. -/
def lookupCascade (db : DB) (lang : Lang) (word : Str) :
    List (HubEntry × Source) :=
  let cleanWord := FileParse.jsTrim (jsToLower word)
  let activeDicts := (getDictionaries db lang).filter (fun d => d.enabled)
  if activeDicts.isEmpty then []
  else
    let legacyResult := lookupLegacy db lang cleanWord
    let wordMatches := db.hub.filter (fun e => e.word == cleanWord)
    let hanjaMatches :=
      if lang == Lang.KR then db.hub.filter (fun e => e.hanja == some cleanWord) else []
    let uniqueMatches := dedupByKey (wordMatches ++ hanjaMatches)
    let finalResults := uniqueMatches.filterMap (fun m =>
      (activeDicts.find? (fun d => d.id == m.dictId)).map (fun s => (m, s)))
    let withLegacy :=
      match legacyResult with
      | none => finalResults
      | some le =>
        match activeDicts.find? (fun d => d.type == SourceType.USER) with
        | none => finalResults
        | some userDict =>
          if finalResults.any (fun r => r.2.id == userDict.id) then finalResults
          else finalResults ++ [({ le with dictId := userDict.id }, userDict)]
    sortResults withLegacy

end Hub

/-- C1: for any language, three enabled sources with priorities 0, 1, 2
(listed in the store in scrambled order) and one entry for the same
normalized word in each (also scrambled), `lookupCascade` returns all
three matches sorted by ascending source priority, the priority-0
source's entry first. -/
theorem cascade_priority_ordering
    (lang : Lang) (idA idB idC nmA nmB nmC : Str) (tyA tyB tyC : SourceType)
    (cA cB cC : Nat) (w tA tB tC : Str) (oA oB oC : Option Str)
    (hAB : idA ≠ idB) (hAC : idA ≠ idC) (hBC : idB ≠ idC)
    (hw : FileParse.jsTrim (jsToLower w) = w) :
    Hub.lookupCascade
      ⟨[⟨idB, nmB, lang, 1, true, cB, tyB⟩, ⟨idC, nmC, lang, 2, true, cC, tyC⟩,
        ⟨idA, nmA, lang, 0, true, cA, tyA⟩],
       [⟨idC, w, oC, tC, none⟩, ⟨idA, w, oA, tA, none⟩, ⟨idB, w, oB, tB, none⟩],
       []⟩ lang w =
      [(⟨idA, w, oA, tA, none⟩, ⟨idA, nmA, lang, 0, true, cA, tyA⟩),
       (⟨idB, w, oB, tB, none⟩, ⟨idB, nmB, lang, 1, true, cB, tyB⟩),
       (⟨idC, w, oC, tC, none⟩, ⟨idC, nmC, lang, 2, true, cC, tyC⟩)] := by
  have bAB : (idA == idB) = false := beq_eq_false_iff_ne.mpr hAB
  have bAC : (idA == idC) = false := beq_eq_false_iff_ne.mpr hAC
  have bBC : (idB == idC) = false := beq_eq_false_iff_ne.mpr hBC
  have kCA : (idC ++ '_' :: w == idA ++ '_' :: w) = false :=
    beq_eq_false_iff_ne.mpr fun hc => hAC (List.append_cancel_right hc).symm
  have kCB : (idC ++ '_' :: w == idB ++ '_' :: w) = false :=
    beq_eq_false_iff_ne.mpr fun hc => hBC (List.append_cancel_right hc).symm
  have kAB : (idA ++ '_' :: w == idB ++ '_' :: w) = false :=
    beq_eq_false_iff_ne.mpr fun hc => hAB (List.append_cancel_right hc)
  have pBA := Ne.symm hAB
  have pCA := Ne.symm hAC
  have pCB := Ne.symm hBC
  simp [Hub.lookupCascade, Hub.getDictionaries, Hub.sortByPriority, Hub.insertByPriority,
    Hub.lookupLegacy, Hub.dedupByKey, Hub.entryKey, Hub.sortResults, Hub.insertResult,
    hw, bAB, bAC, bBC, kCA, kCB, kAB, hAB, hAC, hBC, pBA, pCA, pCB]

/-- C1 witness: three concrete sources and entries. -/
theorem cascade_priority_ordering_witness :
    Hub.lookupCascade
      ⟨[⟨str "b", str "B", Lang.EN, 1, true, 0, SourceType.IMPORTED⟩,
        ⟨str "c", str "C", Lang.EN, 2, true, 0, SourceType.IMPORTED⟩,
        ⟨str "a", str "A", Lang.EN, 0, true, 0, SourceType.IMPORTED⟩],
       [⟨str "c", str "cat", none, str "3", none⟩,
        ⟨str "a", str "cat", none, str "1", none⟩,
        ⟨str "b", str "cat", none, str "2", none⟩],
       []⟩ Lang.EN (str "cat") =
      [(⟨str "a", str "cat", none, str "1", none⟩,
        ⟨str "a", str "A", Lang.EN, 0, true, 0, SourceType.IMPORTED⟩),
       (⟨str "b", str "cat", none, str "2", none⟩,
        ⟨str "b", str "B", Lang.EN, 1, true, 0, SourceType.IMPORTED⟩),
       (⟨str "c", str "cat", none, str "3", none⟩,
        ⟨str "c", str "C", Lang.EN, 2, true, 0, SourceType.IMPORTED⟩)] :=
  cascade_priority_ordering Lang.EN (str "a") (str "b") (str "c")
    (str "A") (str "B") (str "C")
    SourceType.IMPORTED SourceType.IMPORTED SourceType.IMPORTED 0 0 0
    (str "cat") (str "1") (str "2") (str "3") none none none
    (by decide) (by decide) (by decide) (by decide)

/-- Anything in a store after a `put` was either already there or is the
record just put. -/
theorem mem_putHubEntry {hub : List Hub.HubEntry} {e x : Hub.HubEntry}
    (h : x ∈ Hub.putHubEntry hub e) : x ∈ hub ∨ x = e := by
  unfold Hub.putHubEntry at h
  split at h
  · obtain ⟨y, hy, hxy⟩ := List.mem_map.mp h
    by_cases hc : (y.dictId == e.dictId && y.word == e.word) = true
    · rw [if_pos hc] at hxy
      exact Or.inr hxy.symm
    · rw [if_neg hc] at hxy
      exact Or.inl (hxy ▸ hy)
  · rcases List.mem_append.mp h with h1 | h2
    · exact Or.inl h1
    · exact Or.inr (by simpa using h2)

/-- Every record present after the import fold was already stored or
comes from a batch entry with a present, non-empty word. -/
theorem mem_importFold (dictId : Str) (entries : List Hub.PEntry) :
    ∀ (hub : List Hub.HubEntry) (x : Hub.HubEntry),
      x ∈ entries.foldl (fun h p =>
        match p.word with
        | some w => if w ≠ [] then Hub.putHubEntry h (Hub.storedEntry dictId w p) else h
        | none => h) hub →
      x ∈ hub ∨ ∃ p ∈ entries, ∃ w, p.word = some w ∧ w ≠ [] ∧ x = Hub.storedEntry dictId w p := by
  induction entries with
  | nil =>
    intro hub x h
    exact Or.inl h
  | cons p ps ih =>
    intro hub x h
    rw [List.foldl_cons] at h
    rcases ih _ x h with h1 | ⟨q, hq, w, hw, hwne, hx⟩
    · cases hpw : p.word with
      | none =>
        simp only [hpw] at h1
        exact Or.inl h1
      | some w =>
        simp only [hpw] at h1
        by_cases hwe : w ≠ []
        · rw [if_pos hwe] at h1
          rcases mem_putHubEntry h1 with h2 | h2
          · exact Or.inl h2
          · exact Or.inr ⟨p, List.mem_cons_self p ps, w, hpw, hwe, h2⟩
        · rw [if_neg hwe] at h1
          exact Or.inl h1
    · exact Or.inr ⟨q, List.mem_cons_of_mem p hq, w, hw, hwne, hx⟩

/-- C2 counterexample: a batch of N = 2 entries of which M = 1 lacks a
word stores only one record but increases the source's cached count by
2 = N, not by N - M = 1 (`meta.count += entries.length` counts the whole
batch). -/
theorem count_accounting_counterexample :
    (Hub.importBatchToDict
        ⟨[⟨str "d", str "T", Lang.EN, 0, true, 0, SourceType.IMPORTED⟩], [], []⟩
        [⟨some (str "cat"), some (str "x"), none⟩, ⟨none, some (str "y"), none⟩]
        (str "d")).meta.map (fun d => d.count) = [2] ∧
    (Hub.importBatchToDict
        ⟨[⟨str "d", str "T", Lang.EN, 0, true, 0, SourceType.IMPORTED⟩], [], []⟩
        [⟨some (str "cat"), some (str "x"), none⟩, ⟨none, some (str "y"), none⟩]
        (str "d")).hub.length = 1 ∧
    (2 : Nat) ≠ 2 - 1 := by
  decide

/-- C2 amended: the Hub batch import stores only the entries that have a
(non-empty) word, but increases the target source's cached count by the
full batch length N — not by N - M; callers must pre-filter entries to
keep the count accurate. -/
theorem count_accounting_amended (db : Hub.DB) (entries : List Hub.PEntry) (dictId : Str)
    (l₁ l₂ : List Hub.Source) (d : Hub.Source)
    (hmeta : db.meta = l₁ ++ d :: l₂) (hd : d.id = dictId)
    (h₁ : ∀ x ∈ l₁, x.id ≠ dictId) (h₂ : ∀ x ∈ l₂, x.id ≠ dictId) :
    (Hub.importBatchToDict db entries dictId).meta =
      l₁ ++ { d with count := d.count + entries.length } :: l₂ ∧
    ∀ e ∈ (Hub.importBatchToDict db entries dictId).hub,
      e ∈ db.hub ∨
        ∃ p ∈ entries, ∃ w, p.word = some w ∧ w ≠ [] ∧ e = Hub.storedEntry dictId w p := by
  constructor
  · show db.meta.map _ = _
    rw [hmeta, List.map_append, List.map_cons]
    have m1 : l₁.map (fun d' =>
        if d'.id == dictId then { d' with count := d'.count + entries.length } else d') = l₁ := by
      rw [List.map_congr_left (g := id) fun x hx => by
        simp [beq_eq_false_iff_ne.mpr (h₁ x hx)]]
      exact List.map_id l₁
    have m2 : l₂.map (fun d' =>
        if d'.id == dictId then { d' with count := d'.count + entries.length } else d') = l₂ := by
      rw [List.map_congr_left (g := id) fun x hx => by
        simp [beq_eq_false_iff_ne.mpr (h₂ x hx)]]
      exact List.map_id l₂
    rw [m1, m2, if_pos (by simp [hd])]
  · intro e he
    exact mem_importFold dictId entries db.hub e he

/-- C2 witness: the amended count rule at the counterexample's input. -/
theorem count_accounting_amended_witness :
    (Hub.importBatchToDict
        ⟨[⟨str "d", str "T", Lang.EN, 0, true, 0, SourceType.IMPORTED⟩], [], []⟩
        [⟨some (str "cat"), some (str "x"), none⟩, ⟨none, some (str "y"), none⟩]
        (str "d")).meta =
      [⟨str "d", str "T", Lang.EN, 0, true, 2, SourceType.IMPORTED⟩] :=
  (count_accounting_amended _ _ _ [] []
    ⟨str "d", str "T", Lang.EN, 0, true, 0, SourceType.IMPORTED⟩
    rfl rfl (by simp) (by simp)).1

/-- C7 counterexample: `lookupCascade` has no empty-word guard.  Import a
whitespace-only word (truthy in JS, normalised to the empty string) into
an enabled source; looking up the empty word then returns that record,
not the empty list. -/
theorem cascade_empty_word_counterexample :
    Hub.lookupCascade
      (Hub.importBatchToDict
        ⟨[⟨str "d", str "S", Lang.EN, 0, true, 0, SourceType.IMPORTED⟩], [], []⟩
        [⟨some (str " "), some (str "t"), none⟩] (str "d"))
      Lang.EN [] ≠ [] := by
  decide

/-- C7 amended: with no enabled sources the cascade returns the empty
list (and, being a total function, never errors); for an empty or
whitespace-only word it returns the empty list provided no stored record
(hub entry word, hanja annotation, or legacy record for the language)
has an empty normalized key — the code has no dedicated empty-word
guard. -/
theorem cascade_empty_guard (db : Hub.DB) (lang : Lang) (word : Str) :
    ((Hub.getDictionaries db lang).filter (fun d => d.enabled) = [] →
      Hub.lookupCascade db lang word = []) ∧
    (FileParse.jsTrim (jsToLower word) = [] →
      (∀ e ∈ db.hub, e.word ≠ []) →
      (∀ e ∈ db.hub, e.hanja ≠ some []) →
      (∀ e ∈ db.legacy, ¬(e.language = lang ∧ e.word = [])) →
      Hub.lookupCascade db lang word = []) := by
  constructor
  · intro h
    simp only [Hub.lookupCascade]
    rw [h]
    rfl
  · intro hclean h1 h2 h3
    simp only [Hub.lookupCascade]
    rw [hclean]
    by_cases hact : ((Hub.getDictionaries db lang).filter (fun d => d.enabled)).isEmpty
    · rw [if_pos hact]
    · rw [if_neg hact]
      have hW : db.hub.filter (fun e => e.word == ([] : Str)) = [] :=
        List.filter_eq_nil_iff.mpr fun e he => by simp [h1 e he]
      have hH : db.hub.filter (fun e => e.hanja == some ([] : Str)) = [] :=
        List.filter_eq_nil_iff.mpr fun e he => by simp [h2 e he]
      have hL : db.legacy.find?
          (fun e => e.language == lang && e.word == ([] : Str)) = none :=
        List.find?_eq_none.mpr fun e he => by
          have := h3 e he
          simp only [Bool.and_eq_true, beq_iff_eq]
          intro hc
          exact this ⟨hc.1, hc.2⟩
      rw [hW, hH, Hub.lookupLegacy, hL]
      simp [Hub.dedupByKey, Hub.sortResults]

/-- C7 witness: a disabled-only source gives `[]`; a whitespace-only
lookup against clean stores gives `[]`. -/
theorem cascade_empty_guard_witness :
    Hub.lookupCascade
      ⟨[⟨str "d", str "S", Lang.EN, 0, false, 0, SourceType.IMPORTED⟩],
       [⟨str "d", str "cat", none, str "t", none⟩], []⟩ Lang.EN (str "cat") = [] ∧
    Hub.lookupCascade
      ⟨[⟨str "d", str "S", Lang.EN, 0, true, 0, SourceType.IMPORTED⟩],
       [⟨str "d", str "cat", none, str "t", none⟩], []⟩ Lang.EN (str "  ") = [] :=
  ⟨(cascade_empty_guard _ _ _).1 (by decide),
   (cascade_empty_guard _ _ _).2 (by decide) (by decide) (by decide) (by decide)⟩

namespace Settings

/-- The reorder direction of `movePriority`. -/
inductive Dir where
  | up
  | down
  deriving DecidableEq

/-- The destructuring swap
`[newOrder[index], newOrder[targetIndex]] = [newOrder[targetIndex], newOrder[index]]`
(both indices are in range whenever the caller's guards pass, since the
buttons exist only for rendered rows; out of range the list is returned
unchanged). -/
def listSwap (l : List Hub.Source) (i j : Nat) : List Hub.Source :=
  match l[i]?, l[j]? with
  | some a, some b => (l.set i b).set j a
  | _, _ => l

/-- `movePriority`: no-op at the ends, otherwise swap with the immediate
neighbour in the displayed (priority-sorted) order and renumber every
priority to its new index (`newOrder.map((d, i) => ({ ...d, priority: i }))`). -/
def movePriority (l : List Hub.Source) (index : Nat) (dir : Dir) : List Hub.Source :=
  if dir = Dir.up ∧ index = 0 then l
  else if dir = Dir.down ∧ index = l.length - 1 then l
  else
    (listSwap l index (if dir = Dir.up then index - 1 else index + 1)).mapIdx
      (fun i d => { d with priority := i })

theorem length_listSwap (l : List Hub.Source) (i j : Nat) :
    (listSwap l i j).length = l.length := by
  unfold listSwap
  split <;> simp

theorem listSwap_getElem? (l : List Hub.Source) (i j : Nat)
    (hi : i < l.length) (hj : j < l.length) (hij : i ≠ j) :
    (listSwap l i j)[i]? = l[j]? ∧ (listSwap l i j)[j]? = l[i]? ∧
    ∀ k, k ≠ i → k ≠ j → (listSwap l i j)[k]? = l[k]? := by
  unfold listSwap
  rw [List.getElem?_eq_getElem hi, List.getElem?_eq_getElem hj]
  simp only
  refine ⟨?_, ?_, ?_⟩
  · rw [List.getElem?_set_ne (fun h => hij h.symm), List.getElem?_set_self (by simpa using hi)]
  · rw [List.getElem?_set_self (by simpa using hj)]
  · intro k hki hkj
    rw [List.getElem?_set_ne (fun h => hkj h.symm), List.getElem?_set_ne (fun h => hki h.symm)]

theorem map_priority_mapIdx (l : List Hub.Source) :
    (l.mapIdx (fun i d => { d with priority := i })).map (fun d => d.priority) =
      List.range l.length := by
  apply List.ext_getElem?
  intro i
  by_cases h : i < l.length
  · rw [List.getElem?_map, List.getElem?_mapIdx, List.getElem?_eq_getElem h,
      List.getElem?_range h]
    rfl
  · rw [List.getElem?_map, List.getElem?_mapIdx, List.getElem?_eq_none (by omega),
      List.getElem?_eq_none (by simpa using h)]
    rfl

theorem map_id_mapIdx (l : List Hub.Source) :
    (l.mapIdx (fun i d => { d with priority := i })).map (fun d => d.id) =
      l.map (fun d => d.id) := by
  apply List.ext_getElem?
  intro i
  cases h : l[i]? with
  | none =>
    rw [List.getElem?_map, List.getElem?_mapIdx, h, List.getElem?_map, h]
    rfl
  | some a =>
    rw [List.getElem?_map, List.getElem?_mapIdx, h, List.getElem?_map, h]
    rfl

end Settings

/-- C9: after a reorder that actually moves a source (the end guards do
not fire), the language's priorities are exactly the dense integers
0..n-1 in display order, and the source list is the old one with the
moved source and its immediate neighbour (index-1 for up, index+1 for
down) swapped — every other position unchanged. -/
theorem reorder_renumbering (l : List Hub.Source) (i : Nat) (dir : Settings.Dir)
    (hi : i < l.length)
    (hup : ¬(dir = Settings.Dir.up ∧ i = 0))
    (hdown : ¬(dir = Settings.Dir.down ∧ i = l.length - 1)) :
    (Settings.movePriority l i dir).map (fun d => d.priority) = List.range l.length ∧
    ((Settings.movePriority l i dir)[if dir = Settings.Dir.up then i - 1 else i + 1]?).map
        (fun d => d.id) = (l[i]?).map (fun d => d.id) ∧
    ((Settings.movePriority l i dir)[i]?).map (fun d => d.id) =
      (l[if dir = Settings.Dir.up then i - 1 else i + 1]?).map (fun d => d.id) ∧
    ∀ k, k ≠ i → k ≠ (if dir = Settings.Dir.up then i - 1 else i + 1) →
      ((Settings.movePriority l i dir)[k]?).map (fun d => d.id) =
        (l[k]?).map (fun d => d.id) := by
  have ht : (if dir = Settings.Dir.up then i - 1 else i + 1) < l.length := by
    cases dir with
    | up =>
      rw [if_pos rfl]
      omega
    | down =>
      rw [if_neg (by decide)]
      have : i ≠ l.length - 1 := fun hc => hdown ⟨rfl, hc⟩
      omega
  have hit : i ≠ (if dir = Settings.Dir.up then i - 1 else i + 1) := by
    cases dir with
    | up =>
      rw [if_pos rfl]
      have : i ≠ 0 := fun hc => hup ⟨rfl, hc⟩
      omega
    | down =>
      rw [if_neg (by decide)]
      omega
  obtain ⟨hswap1, hswap2, hswap3⟩ :=
    Settings.listSwap_getElem? l i (if dir = Settings.Dir.up then i - 1 else i + 1) hi ht hit
  unfold Settings.movePriority
  rw [if_neg hup, if_neg hdown]
  refine ⟨?_, ?_, ?_, ?_⟩
  · rw [Settings.map_priority_mapIdx, Settings.length_listSwap]
  · rw [List.getElem?_mapIdx, hswap2]
    cases l[i]? <;> rfl
  · rw [List.getElem?_mapIdx, hswap1]
    cases l[if dir = Settings.Dir.up then i - 1 else i + 1]? <;> rfl
  · intro k hki hkt
    rw [List.getElem?_mapIdx, hswap3 k hki hkt]
    cases l[k]? <;> rfl

/-- C9 witness: moving the middle of three sources up. -/
theorem reorder_renumbering_witness :
    (Settings.movePriority
      [⟨str "a", str "A", Lang.EN, 0, true, 0, SourceType.IMPORTED⟩,
       ⟨str "b", str "B", Lang.EN, 1, true, 0, SourceType.IMPORTED⟩,
       ⟨str "c", str "C", Lang.EN, 2, true, 0, SourceType.IMPORTED⟩]
      1 Settings.Dir.up).map (fun d => d.priority) = List.range 3 :=
  (reorder_renumbering
    [⟨str "a", str "A", Lang.EN, 0, true, 0, SourceType.IMPORTED⟩,
     ⟨str "b", str "B", Lang.EN, 1, true, 0, SourceType.IMPORTED⟩,
     ⟨str "c", str "C", Lang.EN, 2, true, 0, SourceType.IMPORTED⟩]
    1 Settings.Dir.up (by decide) (by decide) (by decide)).1

namespace Ling

/-- The apostrophe character. -/
def squote : Char := Char.ofNat 39

/-- The punctuation class of `getLemmaCandidates`'s strip regex. -/
def isStripPunct (c : Char) : Bool :=
  c == '.' || c == ',' || c == '!' || c == '?' || c == ';' || c == ':' ||
  c == '(' || c == ')' || c == FileParse.dquote || c == squote || c == '«' || c == '»'

/-- `Set.add` followed by `Array.from`: insertion order, first wins. -/
def addCand (l : List Str) (c : Str) : List Str := if c ∈ l then l else l ++ [c]

/-- `w.endsWith(suf)`. -/
def ends (w suf : Str) : Bool := suf.isSuffixOf w

/-- `w.slice(0, -n)`. -/
def cut (w : Str) (n : Nat) : Str := w.take (w.length - n)

/-- `w[i]` (used only in range). -/
def charAt (w : Str) (i : Nat) : Char := w.getD i ' '

/-- The English branch of `getLemmaCandidates`. -/
def candsEN (w : Str) : List Str :=
  let c := addCand [] w
  let c := if ends w (str "s") && w.length > 3 then addCand c (cut w 1) else c
  let c := if ends w (str "es") && w.length > 4 then addCand c (cut w 2) else c
  let c := if ends w (str "ies") && w.length > 4 then addCand c (cut w 3 ++ str "y") else c
  let c :=
    if ends w (str "ing") then
      let c := if w.length > 4 then addCand c (cut w 3) else c
      let c :=
        if w.length > 5 && (charAt w (w.length - 4) == charAt w (w.length - 5)) then
          addCand c (cut w 4)
        else c
      if w.length > 4 then addCand c (cut w 3 ++ str "e") else c
    else c
  let c :=
    if ends w (str "ed") then
      let c := if w.length > 3 then addCand c (cut w 2) else c
      let c :=
        if w.length > 4 && (charAt w (w.length - 3) == charAt w (w.length - 4)) then
          addCand c (cut w 3)
        else c
      let c := if w.length > 3 then addCand c (cut w 1) else c
      if ends w (str "ied") then addCand c (cut w 3 ++ str "y") else c
    else c
  if ends w (str "ly") && w.length > 4 then addCand c (cut w 2) else c

/-- The `-er` verb endings tried by the French branch. -/
def erEndings : List Str :=
  [str "e", str "es", str "ons", str "ez", str "ent", str "ai", str "as", str "a",
   str "âmes", str "âtes", str "èrent", str "ais", str "ait", str "ions", str "iez",
   str "aient", str "erai", str "eras", str "era"]

/-- The `-ir` verb endings tried by the French branch. -/
def irEndings : List Str :=
  [str "is", str "it", str "issons", str "issez", str "issent", str "irai", str "iras"]

/-- The French branch of `getLemmaCandidates`. -/
def candsFR (w : Str) : List Str :=
  let c := addCand [] w
  let c := if ends w (str "s") then addCand c (cut w 1) else c
  let c := if ends w (str "x") then addCand c (cut w 1) else c
  let c := if ends w (str "aux") then addCand c (cut w 3 ++ str "al") else c
  let c := erEndings.foldl (fun acc suf =>
    if ends w suf && w.length > suf.length + 2 then
      addCand acc (cut w suf.length ++ str "er")
    else acc) c
  let c := if ends w (str "eons") then addCand c (cut w 4 ++ str "er") else c
  let c := irEndings.foldl (fun acc suf =>
    if ends w suf && w.length > suf.length + 2 then
      addCand acc (cut w suf.length ++ str "ir")
    else acc) c
  let c := if ends w (str "é") then addCand c (cut w 1 ++ str "er") else c
  let c := if ends w (str "ée") then addCand c (cut w 2 ++ str "er") else c
  let c := if ends w (str "és") then addCand c (cut w 2 ++ str "er") else c
  if ends w (str "i") then addCand c (cut w 1 ++ str "ir") else c

/-- The Korean particles stripped by the Korean branch. -/
def particles : List Str :=
  [str "은", str "는", str "이", str "가", str "을", str "를", str "에", str "에서",
   str "에게", str "한테", str "께", str "로", str "으로", str "의", str "와", str "과",
   str "하고", str "이랑", str "도", str "만", str "까지", str "조차", str "부터"]

/-- The Korean branch of `getLemmaCandidates`. -/
def candsKR (w : Str) : List Str :=
  let c := addCand [] w
  let c := particles.foldl (fun acc p =>
    if ends w p && w.length > p.length then addCand acc (cut w p.length) else acc) c
  let c := if ends w (str "요") then addCand c (cut w 1) else c
  let c := if ends w (str "습니다") then addCand c (cut w 3 ++ str "다") else c
  let c := if ends w (str "입니다") then addCand c (cut w 3 ++ str "다") else c
  let c := if ends w (str "니까") then addCand c (cut w 2 ++ str "다") else c
  if ends w (str "고") then addCand c (cut w 1 ++ str "다") else c

/-- `getLemmaCandidates`: lowercase, trim, strip punctuation anywhere,
then the per-language suffix heuristics, in insertion order. -/
def getLemmaCandidates (word : Str) (lang : Lang) : List Str :=
  let w := (FileParse.jsTrim (jsToLower word)).filter (fun ch => !isStripPunct ch)
  match lang with
  | Lang.EN => candsEN w
  | Lang.FR => candsFR w
  | Lang.KR => candsKR w

end Ling

namespace App

/-- The edge-punctuation-and-whitespace class of `handleAddWord`'s
cleaning regex. -/
def isEdge (c : Char) : Bool := Ling.isStripPunct c || FileParse.isWs c

/-- `word.replace(/^[...\s]+|[...\s]+$/g, '')`. -/
def cleanCaptured (s : Str) : Str :=
  ((s.dropWhile isEdge).reverse.dropWhile isEdge).reverse

/-- The in-memory user vocabulary items the resolver's duplicate check
consults. -/
structure VocabItem where
  word : Str
  language : Lang

/-- How a captured word was resolved. -/
inductive Outcome where
  | skippedEmpty
  | alreadyInVocab
  | defined (rootWord : Option Str)
  | askAI
  deriving DecidableEq

/-- The resolver's observable behaviour: the words passed to
`lookupCascade` in order, and the outcome. -/
structure Trace where
  queries : List Str
  outcome : Outcome
  deriving DecidableEq

/-- The lemma-candidate loop of `handleAddWord`: skip candidates equal
(case-insensitively) to the cleaned word, query the cascade for each
remaining candidate in order, stop at the first non-empty result
(`cascadeResults = lemmaResults; break`).  Returns the queried
candidates and, on success, the matching candidate with its results. -/
def lemmaLoop (db : Hub.DB) (lang : Lang) (cleanWord : Str) :
    List Str → List Str × Option (Str × List (Hub.HubEntry × Hub.Source))
  | [] => ([], none)
  | c :: cs =>
    if jsToLower c == jsToLower cleanWord then lemmaLoop db lang cleanWord cs
    else if (Hub.lookupCascade db lang c).isEmpty then
      ((lemmaLoop db lang cleanWord cs).1.cons c, (lemmaLoop db lang cleanWord cs).2)
    else ([c], some (c, Hub.lookupCascade db lang c))

/-- The `found && definition` gate: the cascade produced a result list
and its winning entry's stored `translation` is truthy (non-empty) —
`definition = topResult.entry.translation; found = true` followed by
`if (found && definition)`. -/
def hasDefinition (results : List (Hub.HubEntry × Hub.Source)) : Bool :=
  match results with
  | [] => false
  | r :: _ => r.1.translation != []

/-- `handleAddWord`'s waterfall: clean the word; stop on an empty result;
stop if the user vocabulary already has it; query the cascade for the
exact word; on an empty result run the lemma-candidate loop; finally the
`found && definition` gate — the AI collaborator is called both when no
stage produced results and when the winning entry's translation is the
empty string. -/
def handleAddWord (vocab : List VocabItem) (db : Hub.DB) (lang : Lang) (word : Str) :
    Trace :=
  let cleanWord := cleanCaptured word
  if cleanWord = [] then ⟨[], Outcome.skippedEmpty⟩
  else if vocab.any (fun v =>
      jsToLower v.word == jsToLower cleanWord && v.language == lang) then
    ⟨[], Outcome.alreadyInVocab⟩
  else if (Hub.lookupCascade db lang cleanWord).isEmpty then
    match (lemmaLoop db lang cleanWord (Ling.getLemmaCandidates cleanWord lang)).2 with
    | some (cand, results) =>
      if hasDefinition results then
        ⟨cleanWord :: (lemmaLoop db lang cleanWord (Ling.getLemmaCandidates cleanWord lang)).1,
          Outcome.defined (some cand)⟩
      else
        ⟨cleanWord :: (lemmaLoop db lang cleanWord (Ling.getLemmaCandidates cleanWord lang)).1,
          Outcome.askAI⟩
    | none =>
      ⟨cleanWord :: (lemmaLoop db lang cleanWord (Ling.getLemmaCandidates cleanWord lang)).1,
        Outcome.askAI⟩
  else
    if hasDefinition (Hub.lookupCascade db lang cleanWord) then
      ⟨[cleanWord], Outcome.defined none⟩
    else ⟨[cleanWord], Outcome.askAI⟩

end App


/-- The candidate loop queries candidates in order and stops at the first
non-empty cascade result: every query but the last came back empty; a
`none` result means every query came back empty; a `some` result names
the last query, whose cascade result it carries, and that result is
non-empty. -/
theorem lemmaLoop_spec (db : Hub.DB) (lang : Lang) (cw : Str) (cands : List Str) :
    (∀ q ∈ (App.lemmaLoop db lang cw cands).1.dropLast, Hub.lookupCascade db lang q = []) ∧
    ((App.lemmaLoop db lang cw cands).2 = none →
      ∀ q ∈ (App.lemmaLoop db lang cw cands).1, Hub.lookupCascade db lang q = []) ∧
    ∀ cand results, (App.lemmaLoop db lang cw cands).2 = some (cand, results) →
      (App.lemmaLoop db lang cw cands).1.getLast? = some cand ∧
      results = Hub.lookupCascade db lang cand ∧ results ≠ [] := by
  induction cands with
  | nil => simp [App.lemmaLoop]
  | cons c cs ih =>
    obtain ⟨ih1, ih2, ih3⟩ := ih
    simp only [App.lemmaLoop]
    by_cases hskip : (jsToLower c == jsToLower cw) = true
    · rw [if_pos hskip]
      exact ⟨ih1, ih2, ih3⟩
    · rw [if_neg hskip]
      by_cases hemp : (Hub.lookupCascade db lang c).isEmpty = true
      · rw [if_pos hemp]
        dsimp only
        have hc : Hub.lookupCascade db lang c = [] := by
          rwa [List.isEmpty_iff] at hemp
        refine ⟨?_, ?_, ?_⟩
        · intro q hq
          rcases hr : (App.lemmaLoop db lang cw cs).1 with _ | ⟨x, xs⟩
          · rw [hr] at hq
            simp at hq
          · rw [hr] at hq
            rw [List.dropLast_cons_of_ne_nil (by simp)] at hq
            rcases List.mem_cons.mp hq with rfl | hq2
            · exact hc
            · apply ih1
              rw [hr]
              exact hq2
        · intro hnone q hq
          rcases List.mem_cons.mp hq with rfl | hq2
          · exact hc
          · exact ih2 hnone q hq2
        · intro cand results hsome
          obtain ⟨hlast, hreq, hrne⟩ := ih3 cand results hsome
          have hr1ne : (App.lemmaLoop db lang cw cs).1 ≠ [] := by
            intro hcon
            rw [hcon] at hlast
            simp at hlast
          refine ⟨?_, hreq, hrne⟩
          obtain ⟨y, ys, hys⟩ := List.exists_cons_of_ne_nil hr1ne
          rw [hys, List.getLast?_cons_cons]
          rw [hys] at hlast
          exact hlast
      · rw [if_neg hemp]
        dsimp only
        refine ⟨?_, ?_, ?_⟩
        · intro q hq
          simp at hq
        · intro hnone
          simp at hnone
        · intro cand results hsome
          rw [Option.some.injEq, Prod.mk.injEq] at hsome
          obtain ⟨hc1, hc2⟩ := hsome
          subst hc1
          refine ⟨by simp, hc2.symm, ?_⟩
          intro hcon
          exact hemp (by rw [hc2, hcon]; rfl)

/-- C6 counterexample: a reachable state refuting "the AI collaborator is
reached only if all earlier stages produced nothing".  Import an entry
with a word but no translation (stored as `translation: ''`); resolving
that word finds a non-empty exact cascade result, yet the resolver falls
through to the AI stage, because the `found && definition` gate rejects
the empty translation. -/
theorem waterfall_order_counterexample :
    Hub.lookupCascade
      (Hub.importBatchToDict
        ⟨[⟨str "d", str "D", Lang.EN, 0, true, 0, SourceType.IMPORTED⟩], [], []⟩
        [⟨some (str "cat"), none, none⟩] (str "d")) Lang.EN (str "cat") ≠ [] ∧
    App.handleAddWord []
      (Hub.importBatchToDict
        ⟨[⟨str "d", str "D", Lang.EN, 0, true, 0, SourceType.IMPORTED⟩], [], []⟩
        [⟨some (str "cat"), none, none⟩] (str "d")) Lang.EN (str "cat") =
      ⟨[str "cat"], App.Outcome.askAI⟩ := by
  decide

/-- C6 amended: the resolver's stages run in strict order — a word in
the user vocabulary triggers no cascade query and no AI call; the
lemma-candidate stage runs only when the exact-word cascade is empty,
queries candidates in order and stops at the first non-empty result,
and every query before the last returned empty; when every stage
produced nothing the resolver falls to the AI collaborator.  The AI
stage is additionally reached when a stage did produce results but the
winning entry's stored translation is the empty string (the
`found && definition` gate); a resolution outcome is `defined` exactly
when the gate passes.  In particular, with an empty user vocabulary and
an empty Hub, resolving "running" (EN) queries the cascade for
"running", then the lemma candidates "runn", "run" and "runne" —
reaching "run" — before the AI stage. -/
theorem waterfall_order_amended :
    (∀ (vocab : List App.VocabItem) (db : Hub.DB) (lang : Lang) (word : Str),
      App.cleanCaptured word ≠ [] →
      vocab.any (fun v => jsToLower v.word == jsToLower (App.cleanCaptured word) &&
        v.language == lang) = true →
      App.handleAddWord vocab db lang word = ⟨[], App.Outcome.alreadyInVocab⟩) ∧
    (∀ (vocab : List App.VocabItem) (db : Hub.DB) (lang : Lang) (word : Str),
      App.cleanCaptured word ≠ [] →
      vocab.any (fun v => jsToLower v.word == jsToLower (App.cleanCaptured word) &&
        v.language == lang) = false →
      Hub.lookupCascade db lang (App.cleanCaptured word) ≠ [] →
      App.handleAddWord vocab db lang word =
        ⟨[App.cleanCaptured word],
          if App.hasDefinition (Hub.lookupCascade db lang (App.cleanCaptured word)) then
            App.Outcome.defined none
          else App.Outcome.askAI⟩) ∧
    (∀ (vocab : List App.VocabItem) (db : Hub.DB) (lang : Lang) (word : Str),
      App.cleanCaptured word ≠ [] →
      vocab.any (fun v => jsToLower v.word == jsToLower (App.cleanCaptured word) &&
        v.language == lang) = false →
      Hub.lookupCascade db lang (App.cleanCaptured word) = [] →
      (App.handleAddWord vocab db lang word).queries =
        App.cleanCaptured word ::
          (App.lemmaLoop db lang (App.cleanCaptured word)
            (Ling.getLemmaCandidates (App.cleanCaptured word) lang)).1 ∧
      (∀ q ∈ (App.handleAddWord vocab db lang word).queries.dropLast,
        Hub.lookupCascade db lang q = []) ∧
      ((∀ q ∈ (App.handleAddWord vocab db lang word).queries,
          Hub.lookupCascade db lang q = []) →
        (App.handleAddWord vocab db lang word).outcome = App.Outcome.askAI) ∧
      ((App.lemmaLoop db lang (App.cleanCaptured word)
          (Ling.getLemmaCandidates (App.cleanCaptured word) lang)).2 = none →
        (App.handleAddWord vocab db lang word).outcome = App.Outcome.askAI) ∧
      (∀ cand results,
        (App.lemmaLoop db lang (App.cleanCaptured word)
          (Ling.getLemmaCandidates (App.cleanCaptured word) lang)).2 = some (cand, results) →
        results = Hub.lookupCascade db lang cand ∧ results ≠ [] ∧
        (App.handleAddWord vocab db lang word).outcome =
          (if App.hasDefinition results then App.Outcome.defined (some cand)
           else App.Outcome.askAI))) ∧
    App.handleAddWord []
      ⟨[⟨str "USER_EN", str "User Memory", Lang.EN, 0, true, 0, SourceType.USER⟩], [], []⟩
      Lang.EN (str "running") =
      ⟨[str "running", str "runn", str "run", str "runne"], App.Outcome.askAI⟩ := by
  refine ⟨?_, ?_, ?_, ?_⟩
  · intro vocab db lang word hne hvocab
    simp only [App.handleAddWord]
    rw [if_neg hne, if_pos hvocab]
  · intro vocab db lang word hne hvocab hcasc
    simp only [App.handleAddWord]
    rw [if_neg hne, if_neg (by rw [hvocab]; exact Bool.false_ne_true),
      if_neg (fun hc => hcasc (by rwa [List.isEmpty_iff] at hc))]
    by_cases hdef :
      App.hasDefinition (Hub.lookupCascade db lang (App.cleanCaptured word)) = true
    · rw [if_pos hdef, if_pos hdef]
    · rw [if_neg hdef, if_neg hdef]
  · intro vocab db lang word hne hvocab hcasc
    obtain ⟨hs1, hs2, hs3⟩ := lemmaLoop_spec db lang (App.cleanCaptured word)
      (Ling.getLemmaCandidates (App.cleanCaptured word) lang)
    simp only [App.handleAddWord]
    rw [if_neg hne, if_neg (by rw [hvocab]; exact Bool.false_ne_true),
      if_pos (by rw [hcasc]; rfl)]
    rcases hres : (App.lemmaLoop db lang (App.cleanCaptured word)
        (Ling.getLemmaCandidates (App.cleanCaptured word) lang)).2 with _ | ⟨cand, results⟩
    · dsimp only
      refine ⟨rfl, ?_, ?_, ?_, ?_⟩
      · intro q hq
        rcases hr : (App.lemmaLoop db lang (App.cleanCaptured word)
            (Ling.getLemmaCandidates (App.cleanCaptured word) lang)).1 with _ | ⟨x, xs⟩
        · rw [hr] at hq
          simp at hq
        · rw [hr, List.dropLast_cons_of_ne_nil (by simp)] at hq
          rcases List.mem_cons.mp hq with rfl | hq2
          · exact hcasc
          · apply hs1
            rw [hr]
            exact hq2
      · intro _
        rfl
      · intro _
        rfl
      · intro cand results hcon
        exact absurd hcon (by simp)
    · dsimp only
      obtain ⟨hlast, hreq, hrne⟩ := hs3 cand results hres
      have hquery : ∀ q ∈ (App.lemmaLoop db lang (App.cleanCaptured word)
            (Ling.getLemmaCandidates (App.cleanCaptured word) lang)).1.dropLast,
          Hub.lookupCascade db lang q = [] := hs1
      have hqueries : ∀ q ∈ App.cleanCaptured word ::
            (App.lemmaLoop db lang (App.cleanCaptured word)
              (Ling.getLemmaCandidates (App.cleanCaptured word) lang)).1,
          q ∈ ((App.lemmaLoop db lang (App.cleanCaptured word)
              (Ling.getLemmaCandidates (App.cleanCaptured word) lang)).1) ∨
            q = App.cleanCaptured word := by
        intro q hq
        rcases List.mem_cons.mp hq with rfl | hq2
        · exact Or.inr rfl
        · exact Or.inl hq2
      have hmem : cand ∈ (App.lemmaLoop db lang (App.cleanCaptured word)
          (Ling.getLemmaCandidates (App.cleanCaptured word) lang)).1 := by
        obtain ⟨ys, hys⟩ := List.getLast?_eq_some_iff.mp hlast
        rw [hys]
        exact List.mem_append_right ys (List.mem_singleton.mpr rfl)
      by_cases hdef : App.hasDefinition results = true
      · rw [if_pos hdef]
        refine ⟨rfl, ?_, ?_, ?_, ?_⟩
        · intro q hq
          rcases hr : (App.lemmaLoop db lang (App.cleanCaptured word)
              (Ling.getLemmaCandidates (App.cleanCaptured word) lang)).1 with _ | ⟨x, xs⟩
          · rw [hr] at hq
            simp at hq
          · rw [hr, List.dropLast_cons_of_ne_nil (by simp)] at hq
            rcases List.mem_cons.mp hq with rfl | hq2
            · exact hcasc
            · apply hs1
              rw [hr]
              exact hq2
        · intro hall
          exact absurd (hall cand (List.mem_cons_of_mem _ hmem)) (hreq ▸ hrne)
        · intro hcon
          exact absurd hcon (by simp)
        · intro cand' results' hcon
          rw [Option.some.injEq, Prod.mk.injEq] at hcon
          obtain ⟨hc1, hc2⟩ := hcon
          subst hc1
          subst hc2
          exact ⟨hreq, hrne, by rw [if_pos hdef]⟩
      · rw [if_neg hdef]
        refine ⟨rfl, ?_, ?_, ?_, ?_⟩
        · intro q hq
          rcases hr : (App.lemmaLoop db lang (App.cleanCaptured word)
              (Ling.getLemmaCandidates (App.cleanCaptured word) lang)).1 with _ | ⟨x, xs⟩
          · rw [hr] at hq
            simp at hq
          · rw [hr, List.dropLast_cons_of_ne_nil (by simp)] at hq
            rcases List.mem_cons.mp hq with rfl | hq2
            · exact hcasc
            · apply hs1
              rw [hr]
              exact hq2
        · intro _
          rfl
        · intro _
          rfl
        · intro cand' results' hcon
          rw [Option.some.injEq, Prod.mk.injEq] at hcon
          obtain ⟨hc1, hc2⟩ := hcon
          subst hc1
          subst hc2
          exact ⟨hreq, hrne, by rw [if_neg hdef]⟩
  · decide

/-- C6 witness: a word already in the vocabulary short-circuits; a word
found by the exact cascade with a non-empty stored translation resolves
with a single query and no AI. -/
theorem waterfall_order_amended_witness :
    App.handleAddWord [⟨str "cat", Lang.EN⟩] (⟨[], [], []⟩ : Hub.DB) Lang.EN (str "cat") =
      ⟨[], App.Outcome.alreadyInVocab⟩ ∧
    App.handleAddWord []
      ⟨[⟨str "d", str "D", Lang.EN, 0, true, 0, SourceType.IMPORTED⟩],
       [⟨str "d", str "cat", none, str "t", none⟩], []⟩ Lang.EN (str "cat") =
      ⟨[str "cat"], App.Outcome.defined none⟩ :=
  ⟨waterfall_order_amended.1 _ _ _ _ (by decide) (by decide),
   waterfall_order_amended.2.1 _ _ _ _ (by decide) (by decide) (by decide)⟩
